import Mathlib

/-!
Shallow embedding of the `FileDB` bounded, time-expiring key-value cache
(`src/db.rs` of kroma-network/zkvm-common), together with theorems checking
the specification's claims about it.

Conventions used throughout:
* Byte strings are `List Nat`, one element per byte.
* The storage engine (RocksDB) is an association list; `full_iterator`
  iterates in list order over a snapshot taken at iterator creation, so the
  scan of `compact` walks the original list while deletions are applied to a
  separate, current store.
* Machine integers (`u64`, `usize`) are `Nat` with explicit wrapping
  (`% 2 ^ 64`) at the arithmetic sites where the Rust code can overflow
  (release-profile semantics).
* A Rust panic (`unwrap`, `expect`, `Vec::drain` out of range) is modelled as
  `none` in an `Option`-valued result; `some` carries the non-panicking
  outcome.
* Wall-clock time (`SystemTime::now`, seconds since the epoch) is passed as
  an explicit `now` argument.
* The `bincode` payload codec is kept abstract (`ser`/`deser` parameters);
  the one concrete instance needed by the code itself, `Vec<u8>` with
  bincode's fixed 8-byte little-endian length prefix, is
  `bincodeSerializeBytes`/`bincodeDeserializeBytes`.
* Fallible engine calls are injected where a claim is about engine failure:
  `get_with_timestamp_core` takes the raw engine read result, and `remove`
  takes a flag telling whether the engine delete succeeds.
-/

abbrev Key : Type := List Nat

abbrev Bytes : Type := List Nat

abbrev Store : Type := List (Key × Bytes)

def U64 : Nat := 2 ^ 64

def wadd64 (a b : Nat) : Nat := (a + b) % U64

def wsub64 (a b : Nat) : Nat := (a % U64 + (U64 - b % U64)) % U64

/-- The reserved 4-byte all-zero key holding the live-entry counter
(`KEY_FOR_SIZE` in `db.rs`). -/
def KEY_FOR_SIZE : Key := [0, 0, 0, 0]

/-- `u64::to_le_bytes`. -/
def u64ToLeBytes (n : Nat) : Bytes :=
  [n % 256, n / 256 % 256, n / 256 ^ 2 % 256, n / 256 ^ 3 % 256,
   n / 256 ^ 4 % 256, n / 256 ^ 5 % 256, n / 256 ^ 6 % 256, n / 256 ^ 7 % 256]

/-- `u64::from_le_bytes` on a little-endian byte list. -/
def leBytesToU64 (bs : Bytes) : Nat := bs.foldr (fun b acc => b + 256 * acc) 0

/-- The timestamp stored in the first 8 bytes of a value blob. -/
def tsOf (v : Bytes) : Nat := leBytesToU64 (v.take 8)

/-- Engine point lookup (`DB::get`). -/
def dbGet : Store → Key → Option Bytes
  | [], _ => none
  | e :: rest, k => if e.1 = k then some e.2 else dbGet rest k

/-- Engine point write (`DB::put`): overwrites the entry if the key is
present, otherwise appends it. -/
def dbPut : Store → Key → Bytes → Store
  | [], k, v => [(k, v)]
  | e :: rest, k, v => if e.1 = k then (k, v) :: rest else e :: dbPut rest k v

/-- Engine point delete (`DB::delete`): removes the entry with the given key
(a no-op when the key is absent). -/
def dbDelete : Store → Key → Store
  | [], _ => []
  | e :: rest, k => if e.1 = k then dbDelete rest k else e :: dbDelete rest k

def storeKeys (st : Store) : List Key := st.map Prod.fst

/-- Number of entries other than the reserved counter key: the true
live-entry count of a store. -/
def liveCount : Store → Nat
  | [] => 0
  | e :: rest => if e.1 = KEY_FOR_SIZE then liveCount rest else liveCount rest + 1

/-- `FileDB::set_size`: persist the counter under the reserved key. -/
def set_size (st : Store) (n : Nat) : Store := dbPut st KEY_FOR_SIZE (u64ToLeBytes n)

/-- `FileDB::split_value_and_timestamp`. The Rust code drains the first
8 bytes (`value_from_db.drain(..8)`), which panics (`none`) when the blob is
shorter than 8 bytes; otherwise the drained bytes are the little-endian
timestamp and the remainder is the payload. -/
def split_value_and_timestamp (v : Bytes) : Option (Nat × Bytes) :=
  if 8 ≤ v.length then some (leBytesToU64 (v.take 8), v.drop 8) else none

/-- `FileDB::append_timestamp`: prepend the current time as 8 little-endian
bytes to the serialized value. -/
def append_timestamp (now : Nat) (value : Bytes) : Bytes := u64ToLeBytes now ++ value

/-- `bincode::serialize` for `Vec<u8>`: fixed 8-byte little-endian length
prefix followed by the bytes. -/
def bincodeSerializeBytes (v : Bytes) : Bytes := u64ToLeBytes v.length ++ v

/-- `bincode::deserialize` for `Vec<u8>`: reads the 8-byte little-endian
length, then that many bytes (trailing bytes are allowed, as with bincode's
slice-based free function); `none` is a deserialization error. -/
def bincodeDeserializeBytes (b : Bytes) : Option Bytes :=
  if 8 ≤ b.length then
    if leBytesToU64 (b.take 8) ≤ b.length - 8 then
      some ((b.drop 8).take (leBytesToU64 (b.take 8)))
    else none
  else none

/-- Read path of `FileDB::get_with_timestamp`, as a function of the raw
engine read result (so that engine I/O errors can be considered):
an engine error is logged and turned into a miss, a missing key is a miss,
and a found blob is split and deserialized — where the split panics on a
short blob and the `.unwrap()` panics on a deserialization error. -/
def get_with_timestamp_core {T : Type} (deser : Bytes → Option T) :
    Except Unit (Option Bytes) → Option (Option (Nat × T))
  | Except.error _ => some none
  | Except.ok none => some none
  | Except.ok (some v) =>
    match split_value_and_timestamp v with
    | none => none
    | some p =>
      match deser p.2 with
      | none => none
      | some val => some (some (p.1, val))

/-- `FileDB::get_with_timestamp` against an error-free engine read. -/
def get_with_timestamp {T : Type} (deser : Bytes → Option T) (st : Store) (k : Key) :
    Option (Option (Nat × T)) :=
  get_with_timestamp_core deser (Except.ok (dbGet st k))

/-- `FileDB::get`: discard the timestamp. -/
def get {T : Type} (deser : Bytes → Option T) (st : Store) (k : Key) : Option (Option T) :=
  (get_with_timestamp deser st k).map (fun r => r.map Prod.snd)

/-- The `self.get::<Vec<u8>>(key).is_none()` existence check used by `set`
and `remove`; panics (outer `none`) exactly when that `get` panics. -/
def presenceIsNone (st : Store) (k : Key) : Option Bool :=
  (get bincodeDeserializeBytes st k).map Option.isNone

structure Config where
  capacity : Nat
  expiring_secs : Nat
deriving DecidableEq

structure DBState where
  store : Store
  size : Nat
deriving DecidableEq

/-- The expiry cutoff computed at the top of `FileDB::compact`:
`timestamp - self.expiring_secs as u64` on `u64`, wrapping on underflow. -/
def compactLimit (expiring now : Nat) : Nat := wsub64 now expiring

/-- The scan loop of `FileDB::compact`: walks the iterator snapshot,
skipping the reserved counter key, tracking the minimum timestamp seen and
its key, and immediately deleting (and decrementing the running count for)
every entry whose timestamp is strictly below the cutoff. -/
def compactGo (limit : Nat) :
    List (Key × Bytes) → Store → Nat → Key → Nat → Option (Store × Nat × Key × Nat)
  | [], st, size, oldKey, oldTs => some (st, size, oldKey, oldTs)
  | e :: rest, st, size, oldKey, oldTs =>
    if e.1 = KEY_FOR_SIZE then compactGo limit rest st size oldKey oldTs
    else
      match split_value_and_timestamp e.2 with
      | none => none
      | some p =>
        if p.1 < limit then
          compactGo limit rest (dbDelete st e.1) (wsub64 size 1)
            (if p.1 < oldTs then e.1 else oldKey) (if p.1 < oldTs then p.1 else oldTs)
        else
          compactGo limit rest st size
            (if p.1 < oldTs then e.1 else oldKey) (if p.1 < oldTs then p.1 else oldTs)

/-- `FileDB::compact`: run the scan (oldest key starts as the empty vector,
oldest timestamp as `u64::MAX`), then, if the running count is still at
least the capacity, delete the tracked oldest key and decrement once more. -/
def compact (cfg : Config) (st : Store) (size now : Nat) : Option (Store × Nat) :=
  match compactGo (compactLimit cfg.expiring_secs now) st st size [] (U64 - 1) with
  | none => none
  | some r =>
    if cfg.capacity ≤ r.2.1 then some (dbDelete r.1 r.2.2.1, wsub64 r.2.1 1)
    else some (r.1, r.2.1)

/-- `FileDB::set`: under the size lock — compact (and persist the counter)
when at capacity, increment and persist the counter when the key is absent,
then serialize, prepend the timestamp and write the blob. The `Except.error`
branch is the serialization failure (it carries the state as already
mutated, since the counter updates precede serialization in the source). -/
def FileDB_set {T : Type} (ser : T → Option Bytes) (cfg : Config) (db : DBState)
    (key : Key) (value : T) (now : Nat) : Option (Except DBState DBState) :=
  match (if cfg.capacity ≤ db.size then
          match compact cfg db.store db.size now with
          | none => none
          | some r => some (set_size r.1 r.2, r.2)
        else some (db.store, db.size) : Option (Store × Nat)) with
  | none => none
  | some s1 =>
    match presenceIsNone s1.1 key with
    | none => none
    | some isNone =>
      let sz := if isNone then wadd64 s1.2 1 else s1.2
      let st2 := if isNone then set_size s1.1 sz else s1.1
      match ser value with
      | none => some (Except.error ⟨st2, sz⟩)
      | some sv => some (Except.ok ⟨dbPut st2 key (append_timestamp now sv), sz⟩)

/-- `FileDB::remove`: success with no state change when the key is absent;
otherwise delete from the engine (`deleteOk` tells whether the engine delete
succeeds — on failure the error is returned before the counter is touched),
then decrement and persist the counter. -/
def remove (db : DBState) (key : Key) (deleteOk : Bool) : Option (Except DBState DBState) :=
  match presenceIsNone db.store key with
  | none => none
  | some true => some (Except.ok db)
  | some false =>
    if deleteOk then
      some (Except.ok ⟨set_size (dbDelete db.store key) (wsub64 db.size 1), wsub64 db.size 1⟩)
    else some (Except.error db)

/-- `FileDB::new` on a fresh path: `get_size` finds no counter, initializes
it to 0 and the in-memory mirror starts at 0. -/
def initDB : DBState := ⟨[(KEY_FOR_SIZE, u64ToLeBytes 0)], 0⟩

/-- A sequence of `set` calls (key, payload bytes, call time), each of which
must return `Ok`. -/
def runSets (cfg : Config) : List (Key × Bytes × Nat) → DBState → Option DBState
  | [], db => some db
  | c :: rest, db =>
    match FileDB_set (fun w => some (bincodeSerializeBytes w)) cfg db c.1 c.2.1 c.2.2 with
    | some (Except.ok db2) => runSets cfg rest db2
    | _ => none

/-- `DB::destroy` per the engine contract (spec section 6): irreversible
full wipe of the on-disk store at the path. -/
def DB_destroy : Store := []

/-- `impl Drop for FileDB`: unconditionally calls `DB::destroy` on the
database path, ignoring its result. -/
def fileDB_drop (_db : DBState) : Store := DB_destroy

inductive DecodeError where
  | corruptEnvelope : DecodeError
  | deserializationFailed : DecodeError
deriving DecidableEq

/-- The envelope decoder as the specification words it (section 4.1):
fails with a recoverable `CorruptEnvelope` error value when fewer than
8 bytes are present. Stated for comparison with the source's
`split_value_and_timestamp`, which panics instead. -/
def decodeSpec (blob : Bytes) : Except DecodeError (Nat × Bytes) :=
  if 8 ≤ blob.length then Except.ok (leBytesToU64 (blob.take 8), blob.drop 8)
  else Except.error DecodeError.corruptEnvelope

/-! ### Helper lemmas -/

theorem compactGo_skip (limit : Nat) (snap : List (Key × Bytes)) :
    ∀ st size oldKey oldTs, (∀ e ∈ snap, e.1 = KEY_FOR_SIZE) →
      compactGo limit snap st size oldKey oldTs = some (st, size, oldKey, oldTs) := by
  induction snap with
  | nil => intro st size oldKey oldTs _; rfl
  | cons e rest ih =>
    intro st size oldKey oldTs h
    have he : e.1 = KEY_FOR_SIZE := h e (List.mem_cons_self e rest)
    simp only [compactGo, if_pos he]
    exact ih st size oldKey oldTs (fun x hx => h x (List.mem_cons_of_mem e hx))

theorem get_def {T : Type} (deser : Bytes → Option T) (st : Store) (k : Key) :
    get deser st k = (get_with_timestamp deser st k).map (fun r => r.map Prod.snd) := rfl

/-! ### Claims -/

/-- C4 (counterexample): on a blob shorter than 8 bytes the source's
`split_value_and_timestamp` panics (`Vec::drain(..8)` out of range, modelled
as `none`) at the concrete input `[0]`, whereas the claim requires the
recoverable error value `CorruptEnvelope` (as in the spec-worded
`decodeSpec`), not a panic. -/
theorem C4_counterexample :
    split_value_and_timestamp [0] = none ∧
    decodeSpec [0] = Except.error DecodeError.corruptEnvelope := ⟨rfl, rfl⟩

/-- C4 (amended): for every blob of fewer than 8 bytes envelope decoding
panics (it does not return a recoverable error value); for every blob of at
least 8 bytes, decoding splits the first 8 bytes as the little-endian
timestamp and treats the remainder as the payload. -/
theorem C4_amended_envelope_decode (v : Bytes) :
    (v.length < 8 → split_value_and_timestamp v = none) ∧
    (8 ≤ v.length → split_value_and_timestamp v = some (leBytesToU64 (v.take 8), v.drop 8)) := by
  constructor
  · intro h
    simp [split_value_and_timestamp, Nat.not_le.mpr h]
  · intro h
    simp [split_value_and_timestamp, h]

/-- C4 (witness): the amended decoder behaviour at concrete blobs. -/
theorem C4_amended_envelope_decode_witness :
    split_value_and_timestamp [1, 2, 3, 4, 5, 6, 7, 8, 9] =
      some (leBytesToU64 [1, 2, 3, 4, 5, 6, 7, 8], [9]) ∧
    split_value_and_timestamp [0] = none :=
  ⟨by simpa using (C4_amended_envelope_decode [1, 2, 3, 4, 5, 6, 7, 8, 9]).2 (by decide),
   (C4_amended_envelope_decode [0]).1 (by decide)⟩

/-- C3 (counterexample): a stored 8-byte blob whose (empty) payload fails to
deserialize makes the read path panic (`bincode::deserialize(..).unwrap()`,
modelled as `none`) instead of returning the cache miss `some none` that the
claim requires for every read-path error. -/
theorem C3_counterexample :
    get_with_timestamp_core (fun _ => (none : Option Nat)) (Except.ok (some (u64ToLeBytes 0)))
      = none ∧
    (none : Option (Option (Nat × Nat))) ≠ some none := by
  exact ⟨rfl, by simp⟩

/-- C3 (amended): engine I/O errors and missing keys are returned as `None`
(cache miss) by `get`/`get_with_timestamp`, but a stored blob shorter than
8 bytes, or one whose payload fails to deserialize, causes a panic rather
than a miss. -/
theorem C3_amended_read_path {T : Type} (deser : Bytes → Option T) :
    get_with_timestamp_core deser (Except.error ()) = some none ∧
    get_with_timestamp_core deser (Except.ok none) = some none ∧
    (∀ st k, dbGet st k = none → get deser st k = some none) ∧
    (∀ v : Bytes, v.length < 8 → get_with_timestamp_core deser (Except.ok (some v)) = none) ∧
    (∀ v : Bytes, 8 ≤ v.length → deser (v.drop 8) = none →
      get_with_timestamp_core deser (Except.ok (some v)) = none) := by
  refine ⟨rfl, rfl, ?_, ?_, ?_⟩
  · intro st k h
    simp [get_def, get_with_timestamp, get_with_timestamp_core, h]
  · intro v hv
    simp [get_with_timestamp_core, split_value_and_timestamp, Nat.not_le.mpr hv]
  · intro v hv hd
    simp [get_with_timestamp_core, split_value_and_timestamp, hv, hd]

/-- C3 (witness): the amended read-path behaviour at concrete inputs. -/
theorem C3_amended_read_path_witness :
    get bincodeDeserializeBytes ([] : Store) [1] = some none ∧
    get_with_timestamp_core bincodeDeserializeBytes (Except.ok (some [1, 2, 3])) = none ∧
    get_with_timestamp_core bincodeDeserializeBytes (Except.ok (some (u64ToLeBytes 5))) = none :=
  ⟨(C3_amended_read_path bincodeDeserializeBytes).2.2.1 [] [1] rfl,
   (C3_amended_read_path bincodeDeserializeBytes).2.2.2.1 [1, 2, 3] (by decide),
   (C3_amended_read_path bincodeDeserializeBytes).2.2.2.2 (u64ToLeBytes 5) (by decide) (by decide)⟩

/-- C9: dropping the cache handle unconditionally destroys the whole
on-disk store: whatever the state was, after `Drop` every key reads as
absent and the live-entry count is 0 — nothing survives the handle. -/
theorem C9_drop_destroys_store (db : DBState) (k : Key) :
    fileDB_drop db = [] ∧ dbGet (fileDB_drop db) k = none ∧
    liveCount (fileDB_drop db) = 0 ∧
    get bincodeDeserializeBytes (fileDB_drop db) k = some none := ⟨rfl, rfl, rfl, rfl⟩

/-- C10: the expiry cutoff `now - expiring_secs` is the true difference
exactly when `expiring_secs ≤ now`; when `expiring_secs` exceeds `now`, the
`u64` subtraction wraps to a cutoff larger than `now`, making every entry
whose timestamp is at most `now` eligible for deletion. -/
theorem C10_expiry_underflow (cfg : Config) (now : Nat)
    (h1 : now < U64) (h2 : cfg.expiring_secs < U64) :
    (compactLimit cfg.expiring_secs now = now - cfg.expiring_secs ↔ cfg.expiring_secs ≤ now) ∧
    (now < cfg.expiring_secs →
      now < compactLimit cfg.expiring_secs now ∧
      ∀ ts, ts ≤ now → ts < compactLimit cfg.expiring_secs now) := by
  have hU : U64 = 18446744073709551616 := by norm_num [U64]
  rw [hU] at h1 h2
  unfold compactLimit wsub64
  rw [hU]
  constructor
  · constructor
    · intro h
      by_contra hc
      omega
    · intro h
      omega
  · intro h
    refine ⟨by omega, fun ts hts => by omega⟩

/-- C10 (witness): with `now = 5` and `expiring_secs = 10` the cutoff is
huge and every timestamp up to `now` is below it. -/
theorem C10_expiry_underflow_witness :
    (compactLimit 10 5 = 5 - 10 ↔ 10 ≤ 5) ∧
    (5 < 10 → 5 < compactLimit 10 5 ∧ ∀ ts, ts ≤ 5 → ts < compactLimit 10 5) :=
  C10_expiry_underflow ⟨0, 10⟩ 5 (by decide) (by decide)

/-- C5 (counterexample): compaction on an empty store is not always a no-op
returning 0 and deleting nothing. With capacity 1 and running count 1 the
post-scan branch fires with no candidate ever seen, deletes the empty key
and decrements the count to 0 (per the claim nothing should be deleted and
the count should stay 1); with capacity 0 and count 0 the same branch
underflows the count to `2^64 - 1` instead of returning 0. -/
theorem C5_counterexample :
    compact ⟨1, 0⟩ [] 1 0 = some (([] : Store), 0) ∧
    compact ⟨0, 0⟩ [] 0 0 = some (([] : Store), U64 - 1) ∧
    U64 - 1 ≠ 0 := by
  refine ⟨rfl, rfl, by norm_num [U64]⟩

/-- C5 (amended): after the scan, whenever the running count is still at
least `capacity` the code deletes the tracked oldest key unconditionally —
with no check that a candidate exists — and decrements the count once more;
when no non-reserved entry was scanned the tracked key is the empty vector.
Compaction on a store with no live entries is a no-op returning the incoming
count only when that count is below `capacity` (in particular, an empty
store with count 0 and capacity at least 1 gives a no-op returning 0). -/
theorem C5_amended_oldest_delete (cfg : Config) (st : Store) (size now : Nat)
    (hres : ∀ e ∈ st, e.1 = KEY_FOR_SIZE) :
    (size < cfg.capacity → compact cfg st size now = some (st, size)) ∧
    (cfg.capacity ≤ size →
      compact cfg st size now = some (dbDelete st ([] : Key), wsub64 size 1)) := by
  have h := compactGo_skip (compactLimit cfg.expiring_secs now) st st size [] (U64 - 1) hres
  constructor
  · intro hlt
    simp [compact, h, Nat.not_le.mpr hlt]
  · intro hge
    simp [compact, h, hge]

/-- C5 (witness): the amended compaction behaviour on a store holding only
the reserved counter entry. -/
theorem C5_amended_oldest_delete_witness :
    compact ⟨1, 0⟩ [(KEY_FOR_SIZE, u64ToLeBytes 0)] 0 9 =
      some ([(KEY_FOR_SIZE, u64ToLeBytes 0)], 0) ∧
    compact ⟨1, 0⟩ [(KEY_FOR_SIZE, u64ToLeBytes 0)] 3 9 =
      some (dbDelete [(KEY_FOR_SIZE, u64ToLeBytes 0)] ([] : Key), wsub64 3 1) :=
  ⟨(C5_amended_oldest_delete ⟨1, 0⟩ _ 0 9 (by decide)).1 (by decide),
   (C5_amended_oldest_delete ⟨1, 0⟩ _ 3 9 (by decide)).2 (by decide)⟩

/-- C8: if the engine delete inside `remove` fails, the call errors out
before the counter is touched, so both the in-memory mirror and the
persisted counter (the whole state) are unchanged; when the delete succeeds
the count is decremented and persisted; and `remove` on an absent key
succeeds without changing anything. -/
theorem C8_remove_error_preserves_count (db : DBState) (key : Key) :
    (presenceIsNone db.store key = some false →
      remove db key false = some (Except.error db) ∧
      remove db key true = some (Except.ok
        ⟨set_size (dbDelete db.store key) (wsub64 db.size 1), wsub64 db.size 1⟩)) ∧
    (dbGet db.store key = none → ∀ b, remove db key b = some (Except.ok db)) := by
  constructor
  · intro h
    constructor <;> simp [remove, h]
  · intro h b
    have hp : presenceIsNone db.store key = some true := by
      simp [presenceIsNone, get_def, get_with_timestamp, get_with_timestamp_core, h]
    simp [remove, hp]

/-- C8 (witness): a failing delete on a present key leaves the state
unchanged, and removal of an absent key succeeds unchanged. -/
theorem C8_remove_error_preserves_count_witness :
    remove ⟨[(KEY_FOR_SIZE, u64ToLeBytes 1),
        ([3], append_timestamp 4 (bincodeSerializeBytes [7]))], 1⟩ [3] false =
      some (Except.error ⟨[(KEY_FOR_SIZE, u64ToLeBytes 1),
        ([3], append_timestamp 4 (bincodeSerializeBytes [7]))], 1⟩) ∧
    remove ⟨[(KEY_FOR_SIZE, u64ToLeBytes 1),
        ([3], append_timestamp 4 (bincodeSerializeBytes [7]))], 1⟩ [9] true =
      some (Except.ok ⟨[(KEY_FOR_SIZE, u64ToLeBytes 1),
        ([3], append_timestamp 4 (bincodeSerializeBytes [7]))], 1⟩) :=
  ⟨((C8_remove_error_preserves_count _ [3]).1 (by decide)).1,
   (C8_remove_error_preserves_count _ [9]).2 (by decide) true⟩

/-! ### Store and scan lemmas -/

theorem wsub64_eq_sub {a b : Nat} (hba : b ≤ a) (ha : a < U64) : wsub64 a b = a - b := by
  have hU : U64 = 18446744073709551616 := by norm_num [U64]
  unfold wsub64
  rw [hU] at ha ⊢
  omega

theorem wadd64_eq_add {a b : Nat} (h : a + b < U64) : wadd64 a b = a + b := by
  have hU : U64 = 18446744073709551616 := by norm_num [U64]
  unfold wadd64
  rw [hU] at h ⊢
  omega

theorem dbGet_eq_none_of_not_mem : ∀ (st : Store) (k : Key), k ∉ storeKeys st → dbGet st k = none := by
  intro st
  induction st with
  | nil => intro k _; rfl
  | cons e rest ih =>
    intro k hk
    simp only [storeKeys, List.map_cons, List.mem_cons] at hk
    push_neg at hk
    simp only [dbGet]
    rw [if_neg (fun hc => hk.1 hc.symm)]
    exact ih k (by simpa [storeKeys] using hk.2)

theorem mem_of_mem_dbDelete (k : Key) (e : Key × Bytes) : ∀ st : Store, e ∈ dbDelete st k → e ∈ st := by
  intro st
  induction st with
  | nil => intro h; simp [dbDelete] at h
  | cons x rest ih =>
    intro h
    by_cases hx : x.1 = k
    · simp only [dbDelete, if_pos hx] at h
      exact List.mem_cons_of_mem x (ih h)
    · simp only [dbDelete, if_neg hx] at h
      rcases List.mem_cons.mp h with h1 | h2
      · exact List.mem_cons.mpr (Or.inl h1)
      · exact List.mem_cons_of_mem x (ih h2)

theorem storeKeys_dbDelete_subset {k2 : Key} (st : Store) (k : Key) :
    k2 ∈ storeKeys (dbDelete st k) → k2 ∈ storeKeys st := by
  intro h
  simp only [storeKeys, List.mem_map] at h ⊢
  rcases h with ⟨e, he, hk⟩
  exact ⟨e, mem_of_mem_dbDelete k e st he, hk⟩

theorem not_mem_storeKeys_dbDelete (k : Key) : ∀ st : Store, k ∉ storeKeys (dbDelete st k) := by
  intro st
  induction st with
  | nil => simp [dbDelete, storeKeys]
  | cons x rest ih =>
    by_cases hx : x.1 = k
    · simpa [dbDelete, hx] using ih
    · simp only [dbDelete, if_neg hx, storeKeys, List.map_cons, List.mem_cons]
      push_neg
      exact ⟨fun hc => hx hc.symm, ih⟩

theorem get_miss {T : Type} (deser : Bytes → Option T) {st : Store} {k : Key}
    (h : dbGet st k = none) : get deser st k = some none := by
  simp [get_def, get_with_timestamp, get_with_timestamp_core, h]

theorem compactGo_not_mem (limit : Nat) (k : Key) :
    ∀ (snap : List (Key × Bytes)) (st : Store) (size : Nat) (oldKey : Key) (oldTs : Nat)
      (st2 : Store) (s2 : Nat) (ok2 : Key) (ots2 : Nat),
      k ∉ storeKeys st →
      compactGo limit snap st size oldKey oldTs = some (st2, s2, ok2, ots2) →
      k ∉ storeKeys st2 := by
  intro snap
  induction snap with
  | nil =>
    intro st size oldKey oldTs st2 s2 ok2 ots2 hk h
    simp only [compactGo] at h
    cases h
    exact hk
  | cons e rest ih =>
    intro st size oldKey oldTs st2 s2 ok2 ots2 hk h
    simp only [compactGo] at h
    by_cases he : e.1 = KEY_FOR_SIZE
    · rw [if_pos he] at h
      exact ih st size oldKey oldTs st2 s2 ok2 ots2 hk h
    · rw [if_neg he] at h
      cases hs : split_value_and_timestamp e.2 with
      | none => simp [hs] at h
      | some p =>
        simp only [hs] at h
        by_cases hlim : p.1 < limit
        · rw [if_pos hlim] at h
          refine ih _ _ _ _ _ _ _ _ ?_ h
          intro hc
          exact hk (storeKeys_dbDelete_subset st e.1 hc)
        · rw [if_neg hlim] at h
          exact ih _ _ _ _ _ _ _ _ hk h

theorem compactGo_deletes (limit : Nat) (k : Key) (v : Bytes) :
    ∀ (snap : List (Key × Bytes)) (st : Store) (size : Nat) (oldKey : Key) (oldTs : Nat)
      (st2 : Store) (s2 : Nat) (ok2 : Key) (ots2 : Nat),
      (k, v) ∈ snap → k ≠ KEY_FOR_SIZE → tsOf v < limit →
      compactGo limit snap st size oldKey oldTs = some (st2, s2, ok2, ots2) →
      k ∉ storeKeys st2 := by
  intro snap
  induction snap with
  | nil =>
    intro st size oldKey oldTs st2 s2 ok2 ots2 hm _ _ _
    exact absurd hm (List.not_mem_nil _)
  | cons e rest ih =>
    intro st size oldKey oldTs st2 s2 ok2 ots2 hm hk ht h
    simp only [compactGo] at h
    rcases List.mem_cons.mp hm with he | hmr
    · subst he
      rw [if_neg hk] at h
      cases hs : split_value_and_timestamp v with
      | none => simp [hs] at h
      | some p =>
        simp only [hs] at h
        have hp1 : p.1 = tsOf v := by
          unfold split_value_and_timestamp at hs
          by_cases hl : 8 ≤ v.length
          · rw [if_pos hl] at hs
            cases hs
            rfl
          · rw [if_neg hl] at hs
            cases hs
        have hplim : p.1 < limit := by rw [hp1]; exact ht
        rw [if_pos hplim] at h
        exact compactGo_not_mem limit k rest _ _ _ _ _ _ _ _ (not_mem_storeKeys_dbDelete k st) h
    · by_cases he2 : e.1 = KEY_FOR_SIZE
      · rw [if_pos he2] at h
        exact ih _ _ _ _ _ _ _ _ hmr hk ht h
      · rw [if_neg he2] at h
        cases hs : split_value_and_timestamp e.2 with
        | none => simp [hs] at h
        | some p =>
          simp only [hs] at h
          by_cases hlim : p.1 < limit
          · rw [if_pos hlim] at h
            exact ih _ _ _ _ _ _ _ _ hmr hk ht h
          · rw [if_neg hlim] at h
            exact ih _ _ _ _ _ _ _ _ hmr hk ht h

/-- C2 (counterexample): the boundary case fails. With `expiring_secs = 10`,
an entry inserted at time `t = 0` survives a compaction triggered at exactly
`now = t + expiring_seconds = 10` (the scan deletes only timestamps strictly
below `now - expiring_secs`), and a subsequent `get` still returns the
value, where the claim requires the entry to be absent. -/
theorem C2_boundary_counterexample :
    compact ⟨2, 10⟩ [(KEY_FOR_SIZE, u64ToLeBytes 1),
        ([1], append_timestamp 0 (bincodeSerializeBytes [5]))] 1 10 =
      some ([(KEY_FOR_SIZE, u64ToLeBytes 1),
        ([1], append_timestamp 0 (bincodeSerializeBytes [5]))], 1) ∧
    get bincodeDeserializeBytes
      [(KEY_FOR_SIZE, u64ToLeBytes 1), ([1], append_timestamp 0 (bincodeSerializeBytes [5]))]
      [1] = some (some [5]) := ⟨rfl, rfl⟩

/-- C2 (amended): an entry inserted at time `t` is guaranteed absent from
any `get` made at or after a compaction triggered at a time strictly greater
than `t + expiring_seconds`; at exactly `t + expiring_seconds` the entry may
survive (the scan's comparison is strict). -/
theorem C2_amended_ttl_eviction (cfg : Config) (st : Store) (size now : Nat)
    (k : Key) (v : Bytes) (st3 : Store) (s3 : Nat)
    (hmem : (k, v) ∈ st) (hk : k ≠ KEY_FOR_SIZE)
    (hexp : cfg.expiring_secs ≤ now) (hnow : now < U64)
    (ht : tsOf v + cfg.expiring_secs < now)
    (hcompact : compact cfg st size now = some (st3, s3)) :
    ∀ (T : Type) (deser : Bytes → Option T), get deser st3 k = some none := by
  intro T deser
  have hlim : tsOf v < compactLimit cfg.expiring_secs now := by
    unfold compactLimit
    rw [wsub64_eq_sub hexp hnow]
    omega
  unfold compact at hcompact
  cases hgo : compactGo (compactLimit cfg.expiring_secs now) st st size [] (U64 - 1) with
  | none => simp [hgo] at hcompact
  | some r =>
    simp only [hgo] at hcompact
    have hnot : k ∉ storeKeys r.1 :=
      compactGo_deletes _ k v st st size [] (U64 - 1) r.1 r.2.1 r.2.2.1 r.2.2.2 hmem hk hlim
        (by rw [hgo])
    by_cases hc : cfg.capacity ≤ r.2.1
    · rw [if_pos hc] at hcompact
      cases hcompact
      exact get_miss deser (dbGet_eq_none_of_not_mem _ k
        (fun hc2 => hnot (storeKeys_dbDelete_subset _ _ hc2)))
    · rw [if_neg hc] at hcompact
      cases hcompact
      exact get_miss deser (dbGet_eq_none_of_not_mem _ k hnot)

/-- C2 (witness): at `now = 11 > 0 + 10` the entry written at time 0 is
gone after compaction. -/
theorem C2_amended_ttl_eviction_witness :
    get bincodeDeserializeBytes [(KEY_FOR_SIZE, u64ToLeBytes 1)] [1] = some none :=
  C2_amended_ttl_eviction ⟨2, 10⟩
    [(KEY_FOR_SIZE, u64ToLeBytes 1), ([1], append_timestamp 0 (bincodeSerializeBytes [5]))]
    1 11 [1] (append_timestamp 0 (bincodeSerializeBytes [5]))
    [(KEY_FOR_SIZE, u64ToLeBytes 1)] 0
    (by decide) (by decide) (by decide) (by decide) (by decide) rfl
    Bytes bincodeDeserializeBytes

theorem dbGet_dbPut_self : ∀ (st : Store) (k : Key) (v : Bytes), dbGet (dbPut st k v) k = some v := by
  intro st
  induction st with
  | nil => intro k v; simp [dbPut, dbGet]
  | cons e rest ih =>
    intro k v
    by_cases he : e.1 = k
    · simp [dbPut, if_pos he, dbGet]
    · simp only [dbPut, if_neg he, dbGet]
      exact ih k v

theorem take8_append_u64 (n : Nat) (b : Bytes) : (u64ToLeBytes n ++ b).take 8 = u64ToLeBytes n := rfl

theorem drop8_append_u64 (n : Nat) (b : Bytes) : (u64ToLeBytes n ++ b).drop 8 = b := rfl

theorem length8_le_append_u64 (n : Nat) (b : Bytes) : 8 ≤ (u64ToLeBytes n ++ b).length := by
  rw [List.length_append]
  have h8 : (u64ToLeBytes n).length = 8 := rfl
  omega

theorem split_append_timestamp (now : Nat) (sv : Bytes) :
    split_value_and_timestamp (append_timestamp now sv) =
      some (leBytesToU64 (u64ToLeBytes now), sv) := by
  unfold split_value_and_timestamp append_timestamp
  rw [if_pos (length8_le_append_u64 now sv), take8_append_u64, drop8_append_u64]

/-- C6: a successful `set(k, v)` immediately followed by `get(k)` returns
exactly `v`, for any payload codec that round-trips: the serialize,
timestamp-prepend, store, fetch, timestamp-split, deserialize pipeline is a
round trip. -/
theorem C6_roundtrip {T : Type} (ser : T → Option Bytes) (deser : Bytes → Option T)
    (cfg : Config) (db db2 : DBState) (key : Key) (v : T) (now : Nat)
    (hset : FileDB_set ser cfg db key v now = some (Except.ok db2))
    (hrt : ∀ b, ser v = some b → deser b = some v) :
    get deser db2.store key = some (some v) := by
  unfold FileDB_set at hset
  cases h1 : (if cfg.capacity ≤ db.size then
          match compact cfg db.store db.size now with
          | none => none
          | some r => some (set_size r.1 r.2, r.2)
        else some (db.store, db.size) : Option (Store × Nat)) with
  | none => simp [h1] at hset
  | some s1 =>
    simp only [h1] at hset
    cases h2 : presenceIsNone s1.1 key with
    | none => simp [h2] at hset
    | some isNone =>
      simp only [h2] at hset
      cases h3 : ser v with
      | none => simp [h3] at hset
      | some sv =>
        simp only [h3, Option.some.injEq, Except.ok.injEq] at hset
        rw [← hset]
        simp [get_def, get_with_timestamp, get_with_timestamp_core, dbGet_dbPut_self,
          split_append_timestamp, hrt sv h3]

/-- C6 (witness): a concrete `set` then `get` round trip through the
bincode byte codec. -/
theorem C6_roundtrip_witness :
    get bincodeDeserializeBytes
      [(KEY_FOR_SIZE, u64ToLeBytes 1), ([7], append_timestamp 42 (bincodeSerializeBytes [1, 2]))]
      [7] = some (some [1, 2]) :=
  C6_roundtrip (fun w => some (bincodeSerializeBytes w)) bincodeDeserializeBytes ⟨10, 10⟩ initDB
    ⟨[(KEY_FOR_SIZE, u64ToLeBytes 1), ([7], append_timestamp 42 (bincodeSerializeBytes [1, 2]))], 1⟩
    [7] [1, 2] 42 rfl (fun b hb => by injection hb with h2; rw [← h2]; decide)

/-- C7 (counterexample): a successful `set` on an already-present key does
not always leave the live-entry count unchanged. With capacity 2, count 2,
`expiring_secs = 3`, an old entry under key `[1]` (time 0) and the target
key `[2]` (time 5), the refreshing `set([2], [9])` at time 6 triggers
compaction, which evicts `[1]`, so the count drops from 2 to 1. -/
theorem C7_counterexample :
    FileDB_set (fun w => some (bincodeSerializeBytes w)) ⟨2, 3⟩
      ⟨[(KEY_FOR_SIZE, u64ToLeBytes 2), ([1], append_timestamp 0 (bincodeSerializeBytes [1])),
        ([2], append_timestamp 5 (bincodeSerializeBytes [2]))], 2⟩ [2] [9] 6 =
      some (Except.ok ⟨[(KEY_FOR_SIZE, u64ToLeBytes 1),
        ([2], append_timestamp 6 (bincodeSerializeBytes [9]))], 1⟩) ∧
    (1 : Nat) ≠ 2 := ⟨rfl, by decide⟩

/-- C7 (amended): provided the call does not trigger compaction (the count
is below capacity on entry), a successful `set(k, v2)` on a present key
leaves the live-entry count unchanged and overwrites the stored blob with a
fresh timestamp equal to the new call's time; when the call does trigger
compaction the count can change. -/
theorem C7_amended_refresh {T : Type} (ser : T → Option Bytes) (cfg : Config) (db : DBState)
    (key : Key) (v : T) (now : Nat) (sv : Bytes)
    (hlt : db.size < cfg.capacity)
    (hpres : presenceIsNone db.store key = some false)
    (hser : ser v = some sv) :
    FileDB_set ser cfg db key v now =
      some (Except.ok ⟨dbPut db.store key (append_timestamp now sv), db.size⟩) ∧
    dbGet (dbPut db.store key (append_timestamp now sv)) key = some (append_timestamp now sv) ∧
    (append_timestamp now sv).take 8 = u64ToLeBytes now := by
  refine ⟨?_, dbGet_dbPut_self _ key _, take8_append_u64 now sv⟩
  unfold FileDB_set
  rw [if_neg (Nat.not_le.mpr hlt)]
  simp [hpres, hser]

/-- C7 (witness): a concrete non-compacting refresh keeps the count and
rewrites the blob with the new time. -/
theorem C7_amended_refresh_witness :
    FileDB_set (fun w => some (bincodeSerializeBytes w)) ⟨5, 100⟩
      ⟨[(KEY_FOR_SIZE, u64ToLeBytes 1), ([4], append_timestamp 3 (bincodeSerializeBytes [8]))], 1⟩
      [4] [6] 9 =
      some (Except.ok ⟨dbPut
        [(KEY_FOR_SIZE, u64ToLeBytes 1), ([4], append_timestamp 3 (bincodeSerializeBytes [8]))]
        [4] (append_timestamp 9 (bincodeSerializeBytes [6])), 1⟩) ∧
    dbGet (dbPut
        [(KEY_FOR_SIZE, u64ToLeBytes 1), ([4], append_timestamp 3 (bincodeSerializeBytes [8]))]
        [4] (append_timestamp 9 (bincodeSerializeBytes [6]))) [4] =
      some (append_timestamp 9 (bincodeSerializeBytes [6])) ∧
    (append_timestamp 9 (bincodeSerializeBytes [6])).take 8 = u64ToLeBytes 9 :=
  C7_amended_refresh (fun w => some (bincodeSerializeBytes w)) ⟨5, 100⟩
    ⟨[(KEY_FOR_SIZE, u64ToLeBytes 1), ([4], append_timestamp 3 (bincodeSerializeBytes [8]))], 1⟩
    [4] [6] 9 (bincodeSerializeBytes [6]) (by decide) (by decide) rfl

/-! ### Lemmas for the capacity-bound invariant -/

theorem leBytes_u64ToLeBytes (n : Nat) (h : n < U64) : leBytesToU64 (u64ToLeBytes n) = n := by
  have hU : U64 = 18446744073709551616 := by norm_num [U64]
  rw [hU] at h
  simp only [u64ToLeBytes, leBytesToU64, List.foldr]
  norm_num
  omega

theorem mem_dbPut (st : Store) (k : Key) (v : Bytes) :
    ∀ e, e ∈ dbPut st k v → e = (k, v) ∨ e ∈ st := by
  induction st with
  | nil =>
    intro e he
    simp only [dbPut] at he
    exact Or.inl (by simpa using he)
  | cons x rest ih =>
    intro e he
    by_cases hx : x.1 = k
    · simp only [dbPut, if_pos hx] at he
      rcases List.mem_cons.mp he with h | h
      · exact Or.inl h
      · exact Or.inr (List.mem_cons_of_mem x h)
    · simp only [dbPut, if_neg hx] at he
      rcases List.mem_cons.mp he with h | h
      · exact Or.inr (List.mem_cons.mpr (Or.inl h))
      · rcases ih e h with h2 | h2
        · exact Or.inl h2
        · exact Or.inr (List.mem_cons_of_mem x h2)

theorem storeKeys_dbPut_sub (st : Store) (k : Key) (v : Bytes) (k2 : Key) :
    k2 ∈ storeKeys (dbPut st k v) → k2 = k ∨ k2 ∈ storeKeys st := by
  intro h
  simp only [storeKeys, List.mem_map] at h
  rcases h with ⟨e, he, hk⟩
  rcases mem_dbPut st k v e he with h2 | h2
  · left
    rw [← hk, h2]
  · right
    simp only [storeKeys, List.mem_map]
    exact ⟨e, h2, hk⟩

theorem storeKeys_dbPut_nodup (st : Store) (k : Key) (v : Bytes) :
    (storeKeys st).Nodup → (storeKeys (dbPut st k v)).Nodup := by
  induction st with
  | nil => intro _; simp [dbPut, storeKeys]
  | cons x rest ih =>
    intro hnd
    simp only [storeKeys, List.map_cons, List.nodup_cons] at hnd
    by_cases hx : x.1 = k
    · simp only [dbPut, if_pos hx, storeKeys, List.map_cons, List.nodup_cons]
      exact ⟨by rw [← hx] at *; exact hnd.1, hnd.2⟩
    · simp only [dbPut, if_neg hx, storeKeys, List.map_cons, List.nodup_cons]
      constructor
      · intro hc
        rcases storeKeys_dbPut_sub rest k v x.1 hc with h | h
        · exact hx h
        · exact hnd.1 h
      · exact ih hnd.2

theorem liveCount_cons_reserved {x : Key × Bytes} (hx : x.1 = KEY_FOR_SIZE) (rest : Store) :
    liveCount (x :: rest) = liveCount rest := by
  simp only [liveCount]
  rw [if_pos hx]

theorem liveCount_cons_live {x : Key × Bytes} (hx : ¬ x.1 = KEY_FOR_SIZE) (rest : Store) :
    liveCount (x :: rest) = liveCount rest + 1 := by
  simp only [liveCount]
  rw [if_neg hx]

theorem dbPut_cons_eq {x : Key × Bytes} {k : Key} (hx : x.1 = k) (rest : Store) (v : Bytes) :
    dbPut (x :: rest) k v = (k, v) :: rest := by
  simp only [dbPut]
  rw [if_pos hx]

theorem dbPut_cons_ne {x : Key × Bytes} {k : Key} (hx : ¬ x.1 = k) (rest : Store) (v : Bytes) :
    dbPut (x :: rest) k v = x :: dbPut rest k v := by
  simp only [dbPut]
  rw [if_neg hx]

theorem dbDelete_cons_eq {x : Key × Bytes} {k : Key} (hx : x.1 = k) (rest : Store) :
    dbDelete (x :: rest) k = dbDelete rest k := by
  simp only [dbDelete]
  rw [if_pos hx]

theorem dbDelete_cons_ne {x : Key × Bytes} {k : Key} (hx : ¬ x.1 = k) (rest : Store) :
    dbDelete (x :: rest) k = x :: dbDelete rest k := by
  simp only [dbDelete]
  rw [if_neg hx]

theorem liveCount_dbPut_reserved (st : Store) (v : Bytes) :
    liveCount (dbPut st KEY_FOR_SIZE v) = liveCount st := by
  induction st with
  | nil => simp [dbPut, liveCount]
  | cons x rest ih =>
    by_cases hx : x.1 = KEY_FOR_SIZE
    · rw [dbPut_cons_eq hx, liveCount_cons_reserved rfl, liveCount_cons_reserved hx]
    · rw [dbPut_cons_ne hx, liveCount_cons_live hx, liveCount_cons_live hx, ih]

theorem liveCount_dbPut_new (st : Store) (k : Key) (v : Bytes)
    (hk : k ∉ storeKeys st) (hne : k ≠ KEY_FOR_SIZE) :
    liveCount (dbPut st k v) = liveCount st + 1 := by
  induction st with
  | nil => simp [dbPut, liveCount, if_neg hne]
  | cons x rest ih =>
    simp only [storeKeys, List.map_cons, List.mem_cons] at hk
    push_neg at hk
    have hx : ¬ x.1 = k := fun hc => hk.1 hc.symm
    rw [dbPut_cons_ne hx]
    have ihr := ih (by simpa [storeKeys] using hk.2)
    by_cases hxk : x.1 = KEY_FOR_SIZE
    · rw [liveCount_cons_reserved hxk, liveCount_cons_reserved hxk, ihr]
    · rw [liveCount_cons_live hxk, liveCount_cons_live hxk]
      omega

theorem dbDelete_not_mem (k : Key) : ∀ st : Store, k ∉ storeKeys st → dbDelete st k = st := by
  intro st
  induction st with
  | nil => intro _; rfl
  | cons x rest ih =>
    intro h
    simp only [storeKeys, List.map_cons, List.mem_cons] at h
    push_neg at h
    simp only [dbDelete]
    rw [if_neg (fun hc => h.1 hc.symm)]
    rw [ih (by simpa [storeKeys] using h.2)]

theorem dbDelete_sublist (k : Key) : ∀ st : Store, List.Sublist (dbDelete st k) st := by
  intro st
  induction st with
  | nil => exact List.Sublist.refl []
  | cons x rest ih =>
    by_cases hx : x.1 = k
    · rw [dbDelete_cons_eq hx]
      exact ih.cons x
    · rw [dbDelete_cons_ne hx]
      exact ih.cons₂ x

theorem storeKeys_dbDelete_nodup {st : Store} (k : Key) (h : (storeKeys st).Nodup) :
    (storeKeys (dbDelete st k)).Nodup :=
  ((dbDelete_sublist k st).map Prod.fst).nodup h

theorem liveCount_dbDelete (st : Store) (k : Key) (v : Bytes)
    (hnd : (storeKeys st).Nodup) (hmem : (k, v) ∈ st) (hne : k ≠ KEY_FOR_SIZE) :
    liveCount (dbDelete st k) + 1 = liveCount st := by
  induction st with
  | nil => exact absurd hmem (List.not_mem_nil _)
  | cons x rest ih =>
    simp only [storeKeys, List.map_cons, List.nodup_cons] at hnd
    rcases List.mem_cons.mp hmem with h | h
    · have hx : x.1 = k := by rw [← h]
      have hknotin : k ∉ storeKeys rest := by
        intro hc
        exact hnd.1 (by rw [hx]; exact hc)
      rw [dbDelete_cons_eq hx, dbDelete_not_mem k rest hknotin,
        liveCount_cons_live (by rw [hx]; exact hne) rest]
    · have hx : ¬ x.1 = k := by
        intro hc
        exact hnd.1 (by rw [hc]; exact List.mem_map_of_mem Prod.fst h)
      rw [dbDelete_cons_ne hx]
      have ihr := ih (by simpa [storeKeys] using hnd.2) h
      by_cases hxk : x.1 = KEY_FOR_SIZE
      · rw [liveCount_cons_reserved hxk, liveCount_cons_reserved hxk]
        exact ihr
      · rw [liveCount_cons_live hxk, liveCount_cons_live hxk]
        omega

theorem liveCount_pos_of_mem : ∀ (st : Store) (e : Key × Bytes),
    e ∈ st → e.1 ≠ KEY_FOR_SIZE → 1 ≤ liveCount st := by
  intro st
  induction st with
  | nil => intro e he _; exact absurd he (List.not_mem_nil _)
  | cons x rest ih =>
    intro e he hne
    simp only [liveCount]
    by_cases hxk : x.1 = KEY_FOR_SIZE
    · rw [if_pos hxk]
      rcases List.mem_cons.mp he with h | h
      · exact absurd (by rw [h]; exact hxk) hne
      · exact ih e h hne
    · rw [if_neg hxk]
      omega

theorem exists_live_of_liveCount_pos : ∀ st : Store, 1 ≤ liveCount st →
    ∃ k v, (k, v) ∈ st ∧ k ≠ KEY_FOR_SIZE := by
  intro st
  induction st with
  | nil => intro h; simp [liveCount] at h
  | cons x rest ih =>
    intro h
    by_cases hxk : x.1 = KEY_FOR_SIZE
    · simp only [liveCount, if_pos hxk] at h
      obtain ⟨k, v, hm, hne⟩ := ih h
      exact ⟨k, v, List.mem_cons_of_mem x hm, hne⟩
    · exact ⟨x.1, x.2, List.mem_cons.mpr (Or.inl rfl), hxk⟩

theorem exists_of_mem_storeKeys {k : Key} {st : Store} (h : k ∈ storeKeys st) :
    ∃ v, (k, v) ∈ st := by
  simp only [storeKeys, List.mem_map] at h
  rcases h with ⟨e, he, hk⟩
  exact ⟨e.2, by rw [← hk]; exact he⟩

theorem mem_dbDelete_of_ne {e : Key × Bytes} {k : Key} :
    ∀ st : Store, e ∈ st → e.1 ≠ k → e ∈ dbDelete st k := by
  intro st
  induction st with
  | nil => intro he _; exact absurd he (List.not_mem_nil _)
  | cons x rest ih =>
    intro he hne
    by_cases hx : x.1 = k
    · simp only [dbDelete, if_pos hx]
      rcases List.mem_cons.mp he with h | h
      · exact absurd (by rw [h]; exact hx) hne
      · exact ih h hne
    · simp only [dbDelete, if_neg hx]
      rcases List.mem_cons.mp he with h | h
      · exact List.mem_cons.mpr (Or.inl h)
      · exact List.mem_cons_of_mem x (ih h hne)

theorem presence_true_of_none {st : Store} {k : Key} (h : dbGet st k = none) :
    presenceIsNone st k = some true := by
  simp [presenceIsNone, get_def, get_with_timestamp, get_with_timestamp_core, h]

/-- Well-formed store: every live blob carries the 8-byte timestamp prefix
and a timestamp below the `u64::MAX` sentinel used by the scan. -/
def wfStore (st : Store) : Prop :=
  ∀ e ∈ st, e.1 ≠ KEY_FOR_SIZE → 8 ≤ e.2.length ∧ tsOf e.2 < U64 - 1

/-- The state invariant maintained by sequences of `set` calls: the mirror
equals the true live count, is bounded by the capacity, keys are unique and
drawn from the reserved key plus the keys used so far, and blobs are
well-formed. -/
def InvDB (cfg : Config) (used : List Key) (db : DBState) : Prop :=
  db.size = liveCount db.store ∧ db.size ≤ cfg.capacity ∧ (storeKeys db.store).Nodup ∧
  wfStore db.store ∧ ∀ e ∈ db.store, e.1 = KEY_FOR_SIZE ∨ e.1 ∈ used

theorem compactGo_inv (limit : Nat) :
    ∀ (snap : List (Key × Bytes)) (st : Store) (size : Nat) (oldKey : Key) (oldTs : Nat),
      (∀ e ∈ snap, e.1 ≠ KEY_FOR_SIZE → 8 ≤ e.2.length) →
      (∀ e ∈ snap, e ∈ st) →
      ((snap.map Prod.fst).Nodup) →
      ((storeKeys st).Nodup) →
      size = liveCount st → size < U64 →
      ∃ st2 s2 ok2 ots2,
        compactGo limit snap st size oldKey oldTs = some (st2, s2, ok2, ots2) ∧
        s2 = liveCount st2 ∧ s2 ≤ size ∧ (storeKeys st2).Nodup ∧
        (∀ e ∈ st2, e ∈ st) ∧ ots2 ≤ oldTs ∧
        (∀ e ∈ snap, e.1 ≠ KEY_FOR_SIZE → ots2 ≤ tsOf e.2) ∧
        ((st2 = st ∧ s2 = size ∧ ((ok2 = oldKey ∧ ots2 = oldTs) ∨
          (ok2 ∈ storeKeys st2 ∧ ok2 ≠ KEY_FOR_SIZE))) ∨ s2 < size) := by
  intro snap
  induction snap with
  | nil =>
    intro st size oldKey oldTs _ _ _ h4 h5 _
    exact ⟨st, size, oldKey, oldTs, rfl, h5, Nat.le_refl size, h4, fun e he => he,
      Nat.le_refl oldTs, fun e he => absurd he (List.not_mem_nil e),
      Or.inl ⟨rfl, rfl, Or.inl ⟨rfl, rfl⟩⟩⟩
  | cons e rest ih =>
    intro st size oldKey oldTs h1 h2 h3 h4 h5 h6
    have hehd : e ∈ e :: rest := List.mem_cons_self e rest
    have hest : e ∈ st := h2 e hehd
    have h1r : ∀ x ∈ rest, x.1 ≠ KEY_FOR_SIZE → 8 ≤ x.2.length :=
      fun x hx => h1 x (List.mem_cons_of_mem e hx)
    have h3p : e.1 ∉ rest.map Prod.fst ∧ (rest.map Prod.fst).Nodup :=
      List.nodup_cons.mp (by rw [List.map_cons] at h3; exact h3)
    by_cases he : e.1 = KEY_FOR_SIZE
    · obtain ⟨st2, s2, ok2, ots2, heq, c1, c2, c3, c4, c5, c6, c7⟩ :=
        ih st size oldKey oldTs h1r (fun x hx => h2 x (List.mem_cons_of_mem e hx)) h3p.2 h4 h5 h6
      refine ⟨st2, s2, ok2, ots2, ?_, c1, c2, c3, c4, c5, ?_, c7⟩
      · simp only [compactGo, if_pos he]
        exact heq
      · intro x hx hne
        rcases List.mem_cons.mp hx with hx1 | hx1
        · exact absurd (by rw [hx1]; exact he) hne
        · exact c6 x hx1 hne
    · have hwfe : 8 ≤ e.2.length := h1 e hehd he
      have hsplit : split_value_and_timestamp e.2 = some (tsOf e.2, e.2.drop 8) := by
        unfold split_value_and_timestamp
        rw [if_pos hwfe]
        rfl
      have hT2le : (if tsOf e.2 < oldTs then tsOf e.2 else oldTs) ≤ oldTs := by
        by_cases hmin : tsOf e.2 < oldTs
        · rw [if_pos hmin]; omega
        · rw [if_neg hmin]
      have hT2ts : (if tsOf e.2 < oldTs then tsOf e.2 else oldTs) ≤ tsOf e.2 := by
        by_cases hmin : tsOf e.2 < oldTs
        · rw [if_pos hmin]
        · rw [if_neg hmin]; omega
      by_cases hts : tsOf e.2 < limit
      · have h1size : 1 ≤ size := by
          rw [h5]
          exact liveCount_pos_of_mem st e hest he
        have hw : wsub64 size 1 = size - 1 := wsub64_eq_sub h1size h6
        have hlc : liveCount (dbDelete st e.1) + 1 = liveCount st :=
          liveCount_dbDelete st e.1 e.2 h4 hest he
        obtain ⟨st2, s2, ok2, ots2, heq, c1, c2, c3, c4, c5, c6, c7⟩ :=
          ih (dbDelete st e.1) (wsub64 size 1)
            (if tsOf e.2 < oldTs then e.1 else oldKey)
            (if tsOf e.2 < oldTs then tsOf e.2 else oldTs)
            h1r
            (fun x hx => mem_dbDelete_of_ne st (h2 x (List.mem_cons_of_mem e hx))
              (fun hc => h3p.1 (by rw [← hc]; exact List.mem_map_of_mem Prod.fst hx)))
            h3p.2 (storeKeys_dbDelete_nodup e.1 h4)
            (by rw [hw]; omega)
            (by rw [hw]; omega)
        refine ⟨st2, s2, ok2, ots2, ?_, c1, ?_, c3, ?_, ?_, ?_, ?_⟩
        · simp only [compactGo, if_neg he, hsplit]
          rw [if_pos hts]
          exact heq
        · rw [hw] at c2
          omega
        · exact fun x hx => mem_of_mem_dbDelete e.1 x st (c4 x hx)
        · exact le_trans c5 hT2le
        · intro x hx hne
          rcases List.mem_cons.mp hx with hx1 | hx1
          · rw [hx1]
            exact le_trans c5 hT2ts
          · exact c6 x hx1 hne
        · right
          rw [hw] at c2
          omega
      · obtain ⟨st2, s2, ok2, ots2, heq, c1, c2, c3, c4, c5, c6, c7⟩ :=
          ih st size
            (if tsOf e.2 < oldTs then e.1 else oldKey)
            (if tsOf e.2 < oldTs then tsOf e.2 else oldTs)
            h1r (fun x hx => h2 x (List.mem_cons_of_mem e hx)) h3p.2 h4 h5 h6
        refine ⟨st2, s2, ok2, ots2, ?_, c1, c2, c3, c4, ?_, ?_, ?_⟩
        · simp only [compactGo, if_neg he, hsplit]
          rw [if_neg hts]
          exact heq
        · exact le_trans c5 hT2le
        · intro x hx hne
          rcases List.mem_cons.mp hx with hx1 | hx1
          · rw [hx1]
            exact le_trans c5 hT2ts
          · exact c6 x hx1 hne
        · rcases c7 with ⟨hst2, hs2, hcand⟩ | hlt
          · left
            refine ⟨hst2, hs2, ?_⟩
            rcases hcand with ⟨hok, hots⟩ | hlive
            · by_cases hmin : tsOf e.2 < oldTs
              · right
                rw [if_pos hmin] at hok
                constructor
                · rw [hok, hst2]
                  exact List.mem_map_of_mem Prod.fst hest
                · rw [hok]
                  exact he
              · left
                rw [if_neg hmin] at hok
                rw [if_neg hmin] at hots
                exact ⟨hok, hots⟩
            · right
              exact hlive
          · right
            exact hlt

theorem compact_sync (cfg : Config) (st : Store) (now : Nat)
    (hwf : wfStore st) (hnd : (storeKeys st).Nodup)
    (hcap1 : 1 ≤ cfg.capacity) (hcapU : cfg.capacity < U64)
    (hlive : liveCount st = cfg.capacity) :
    ∃ st3 s3, compact cfg st cfg.capacity now = some (st3, s3) ∧
      s3 = liveCount st3 ∧ s3 + 1 ≤ cfg.capacity ∧ (storeKeys st3).Nodup ∧
      ∀ e ∈ st3, e ∈ st := by
  obtain ⟨st2, s2, ok2, ots2, heq, c1, c2, c3, c4, c5, c6, c7⟩ :=
    compactGo_inv (compactLimit cfg.expiring_secs now) st st cfg.capacity [] (U64 - 1)
      (fun e he hne => (hwf e he hne).1) (fun e he => he)
      hnd hnd hlive.symm hcapU
  by_cases hc : cfg.capacity ≤ s2
  · rcases c7 with ⟨hst2, _, hcand⟩ | hlt
    · rcases hcand with ⟨_, hots⟩ | ⟨hmemk, hnek⟩
      · obtain ⟨k, v, hkv, hkne⟩ := exists_live_of_liveCount_pos st (by omega)
        have hlek := c6 (k, v) hkv hkne
        have hlt2 := (hwf (k, v) hkv hkne).2
        rw [hots] at hlek
        exact absurd hlek (Nat.not_le.mpr hlt2)
      · obtain ⟨v2, hv2⟩ := exists_of_mem_storeKeys hmemk
        have h1s : 1 ≤ s2 := by omega
        have h2s : s2 < U64 := by omega
        have hwsub : wsub64 s2 1 = s2 - 1 := wsub64_eq_sub h1s h2s
        have hdel : liveCount (dbDelete st2 ok2) + 1 = liveCount st2 :=
          liveCount_dbDelete st2 ok2 v2 c3 hv2 hnek
        refine ⟨dbDelete st2 ok2, wsub64 s2 1, ?_, ?_, ?_, storeKeys_dbDelete_nodup ok2 c3,
          fun x hx => c4 x (mem_of_mem_dbDelete ok2 x st2 hx)⟩
        · unfold compact
          simp only [heq]
          rw [if_pos hc]
        · rw [hwsub]
          omega
        · rw [hwsub]
          omega
    · exact absurd hlt (Nat.not_lt.mpr hc)
  · refine ⟨st2, s2, ?_, c1, by omega, c3, c4⟩
    unfold compact
    simp only [heq]
    rw [if_neg hc]

theorem set_finish (cfg : Config) (used : List Key) (key : Key) (v : Bytes) (now : Nat)
    (st1 : Store) (s1 : Nat)
    (hs1live : s1 = liveCount st1) (hs1le : s1 + 1 ≤ cfg.capacity)
    (hnd1 : (storeKeys st1).Nodup) (hwf1 : wfStore st1)
    (hcl1 : ∀ e ∈ st1, e.1 = KEY_FOR_SIZE ∨ e.1 ∈ used)
    (hkres : key ≠ KEY_FOR_SIZE) (hknotin : key ∉ storeKeys st1)
    (hnow : now < U64 - 1) (hcapU : cfg.capacity < U64) :
    InvDB cfg (key :: used)
      ⟨dbPut (set_size st1 (wadd64 s1 1)) key (append_timestamp now (bincodeSerializeBytes v)),
        wadd64 s1 1⟩ := by
  have hU1 : (1 : Nat) ≤ U64 := by norm_num [U64]
  have hadd : wadd64 s1 1 = s1 + 1 := wadd64_eq_add (by omega)
  have hknotin2 : key ∉ storeKeys (set_size st1 (wadd64 s1 1)) := by
    intro hk
    rcases storeKeys_dbPut_sub st1 KEY_FOR_SIZE (u64ToLeBytes (wadd64 s1 1)) key hk with h | h
    · exact hkres h
    · exact hknotin h
  refine ⟨?_, ?_, ?_, ?_, ?_⟩
  · show wadd64 s1 1 =
      liveCount (dbPut (set_size st1 (wadd64 s1 1)) key
        (append_timestamp now (bincodeSerializeBytes v)))
    rw [liveCount_dbPut_new _ key _ hknotin2 hkres]
    unfold set_size
    rw [liveCount_dbPut_reserved, hadd, hs1live]
  · show wadd64 s1 1 ≤ cfg.capacity
    rw [hadd]
    omega
  · exact storeKeys_dbPut_nodup _ key _ (storeKeys_dbPut_nodup st1 KEY_FOR_SIZE _ hnd1)
  · intro e he hne
    rcases mem_dbPut _ key _ e he with h | h
    · constructor
      · rw [h]
        exact length8_le_append_u64 now (bincodeSerializeBytes v)
      · rw [h]
        show tsOf (append_timestamp now (bincodeSerializeBytes v)) < U64 - 1
        unfold tsOf append_timestamp
        rw [take8_append_u64, leBytes_u64ToLeBytes now (by omega)]
        exact hnow
    · rcases mem_dbPut st1 KEY_FOR_SIZE _ e h with h2 | h2
      · exact absurd (by rw [h2]) hne
      · exact hwf1 e h2 hne
  · intro e he
    rcases mem_dbPut _ key _ e he with h | h
    · right
      rw [h]
      exact List.mem_cons_self key used
    · rcases mem_dbPut st1 KEY_FOR_SIZE _ e h with h2 | h2
      · left
        rw [h2]
      · rcases hcl1 e h2 with hx | hx
        · exact Or.inl hx
        · exact Or.inr (List.mem_cons_of_mem key hx)

theorem set_step (cfg : Config) (used : List Key) (db : DBState) (key : Key) (v : Bytes)
    (now : Nat)
    (hinv : InvDB cfg used db) (hknew : key ∉ used) (hkres : key ≠ KEY_FOR_SIZE)
    (hnow : now < U64 - 1) (hcap1 : 1 ≤ cfg.capacity) (hcapU : cfg.capacity < U64) :
    ∃ db2 : DBState,
      FileDB_set (fun w => some (bincodeSerializeBytes w)) cfg db key v now =
        some (Except.ok db2) ∧ InvDB cfg (key :: used) db2 := by
  obtain ⟨hsz, hle, hnd, hwf, hclosed⟩ := hinv
  by_cases hc : cfg.capacity ≤ db.size
  · have hdbcap : db.size = cfg.capacity := Nat.le_antisymm hle hc
    obtain ⟨st3, s3, heqc, hl3, hle3, hnd3, hsub3⟩ :=
      compact_sync cfg db.store now hwf hnd hcap1 hcapU (by rw [← hsz, hdbcap])
    have hcl3 : ∀ e ∈ set_size st3 s3, e.1 = KEY_FOR_SIZE ∨ e.1 ∈ used := by
      intro e he
      rcases mem_dbPut st3 KEY_FOR_SIZE (u64ToLeBytes s3) e he with h | h
      · left
        rw [h]
      · exact hclosed e (hsub3 e h)
    have hwf3 : wfStore (set_size st3 s3) := by
      intro e he hne
      rcases mem_dbPut st3 KEY_FOR_SIZE (u64ToLeBytes s3) e he with h | h
      · exact absurd (by rw [h]) hne
      · exact hwf e (hsub3 e h) hne
    have hnd3b : (storeKeys (set_size st3 s3)).Nodup := storeKeys_dbPut_nodup st3 _ _ hnd3
    have hlive3 : s3 = liveCount (set_size st3 s3) := by
      unfold set_size
      rw [liveCount_dbPut_reserved]
      exact hl3
    have hknotin1 : key ∉ storeKeys (set_size st3 s3) := by
      intro hk
      obtain ⟨v2, hv2⟩ := exists_of_mem_storeKeys hk
      rcases hcl3 (key, v2) hv2 with h | h
      · exact hkres h
      · exact hknew h
    have hpres : presenceIsNone (set_size st3 s3) key = some true :=
      presence_true_of_none (dbGet_eq_none_of_not_mem _ key hknotin1)
    refine ⟨⟨dbPut (set_size (set_size st3 s3) (wadd64 s3 1)) key
      (append_timestamp now (bincodeSerializeBytes v)), wadd64 s3 1⟩, ?_, ?_⟩
    · unfold FileDB_set
      rw [if_pos hc, hdbcap]
      simp [heqc, hpres]
    · exact set_finish cfg used key v now (set_size st3 s3) s3 hlive3 hle3 hnd3b hwf3 hcl3
        hkres hknotin1 hnow hcapU
  · have hknotin0 : key ∉ storeKeys db.store := by
      intro hk
      obtain ⟨v2, hv2⟩ := exists_of_mem_storeKeys hk
      rcases hclosed (key, v2) hv2 with h | h
      · exact hkres h
      · exact hknew h
    have hpres : presenceIsNone db.store key = some true :=
      presence_true_of_none (dbGet_eq_none_of_not_mem _ key hknotin0)
    refine ⟨⟨dbPut (set_size db.store (wadd64 db.size 1)) key
      (append_timestamp now (bincodeSerializeBytes v)), wadd64 db.size 1⟩, ?_, ?_⟩
    · unfold FileDB_set
      rw [if_neg hc]
      simp [hpres]
    · exact set_finish cfg used key v now db.store db.size hsz (by omega) hnd hwf hclosed
        hkres hknotin0 hnow hcapU

theorem runSets_inv (cfg : Config) (hcap1 : 1 ≤ cfg.capacity) (hcapU : cfg.capacity < U64) :
    ∀ (calls : List (Key × Bytes × Nat)) (used : List Key) (db : DBState),
      InvDB cfg used db →
      ((calls.map (fun c => c.1)).Nodup) →
      (∀ c ∈ calls, c.1 ∉ used) →
      (∀ c ∈ calls, c.1 ≠ KEY_FOR_SIZE) →
      (∀ c ∈ calls, c.2.2 < U64 - 1) →
      ∀ db2, runSets cfg calls db = some db2 → db2.size ≤ cfg.capacity := by
  intro calls
  induction calls with
  | nil =>
    intro used db hinv _ _ _ _ db2 hrun
    simp only [runSets] at hrun
    cases hrun
    exact hinv.2.1
  | cons c rest ih =>
    intro used db hinv hnd hused hres hnow db2 hrun
    obtain ⟨dbx, hset, hinvx⟩ := set_step cfg used db c.1 c.2.1 c.2.2 hinv
      (hused c (List.mem_cons_self c rest)) (hres c (List.mem_cons_self c rest))
      (hnow c (List.mem_cons_self c rest)) hcap1 hcapU
    simp only [runSets, hset] at hrun
    have hndp : c.1 ∉ rest.map (fun c => c.1) ∧ (rest.map (fun c => c.1)).Nodup :=
      List.nodup_cons.mp (by rw [List.map_cons] at hnd; exact hnd)
    refine ih (c.1 :: used) dbx hinvx hndp.2 ?_
      (fun x hx => hres x (List.mem_cons_of_mem c hx))
      (fun x hx => hnow x (List.mem_cons_of_mem c hx)) db2 hrun
    intro x hx hmem
    rcases List.mem_cons.mp hmem with h | h
    · exact hndp.1 (h ▸ List.mem_map_of_mem (fun c => c.1) hx)
    · exact hused x (List.mem_cons_of_mem c hx) h

/-- C1: starting from a fresh store, for every sequence of successful `set`
calls with pairwise-distinct, non-reserved keys, after each call the
in-memory size mirror is at most `capacity`. Hypotheses record the spec's
construction preconditions (capacity is a positive `usize`) and that call
times are `u64` seconds below the `u64::MAX` sentinel used by the scan. -/
theorem C1_capacity_bound (cfg : Config) (calls : List (Key × Bytes × Nat)) (db2 : DBState)
    (hcap1 : 1 ≤ cfg.capacity) (hcapU : cfg.capacity < U64)
    (hnd : (calls.map (fun c => c.1)).Nodup)
    (hres : ∀ c ∈ calls, c.1 ≠ KEY_FOR_SIZE)
    (hnow : ∀ c ∈ calls, c.2.2 < U64 - 1)
    (hrun : runSets cfg calls initDB = some db2) :
    db2.size ≤ cfg.capacity := by
  refine runSets_inv cfg hcap1 hcapU calls [] initDB ?_ hnd
    (fun c _ => List.not_mem_nil c.1) hres hnow db2 hrun
  refine ⟨by decide, Nat.zero_le _, by decide, ?_, ?_⟩
  · intro e he hne
    exact absurd (by
      rcases List.mem_cons.mp he with h | h
      · rw [h]
      · exact absurd h (List.not_mem_nil e)) hne
  · intro e he
    rcases List.mem_cons.mp he with h | h
    · left
      rw [h]
    · exact absurd h (List.not_mem_nil e)

/-- C1 (witness): a concrete three-call run at capacity 2 whose compaction
keeps the mirror within bound. -/
theorem C1_capacity_bound_witness :
    (⟨[(KEY_FOR_SIZE, u64ToLeBytes 1), ([3], append_timestamp 200 (bincodeSerializeBytes [7]))],
      1⟩ : DBState).size ≤ (⟨2, 5⟩ : Config).capacity :=
  C1_capacity_bound ⟨2, 5⟩ [([1], [9], 100), ([2], [8], 101), ([3], [7], 200)]
    ⟨[(KEY_FOR_SIZE, u64ToLeBytes 1), ([3], append_timestamp 200 (bincodeSerializeBytes [7]))], 1⟩
    (by decide) (by decide) (by decide) (by decide) (by decide) rfl
